import Mathlib

/-!
Verification of the loan-amortization schedule builders (`zad7.py`) and the
day-weighted monthly interest accrual routine (`zestaw1/zad1.py`).

Python floats are embedded as exact rationals (`ℚ`); Python `int` values as
`ℤ`.  A Python `ZeroDivisionError` (division by a zero denominator) is
embedded as `Option.none`: each schedule builder returns `none` exactly when
the corresponding Python call would raise.
-/

/-- One row of an amortization schedule, mirroring the dict appended to
`schedule` in `zad7.py` (fields `period`, `initial_principal`,
`total_payment`, `interest_payment`, `principal_payment`). -/
structure Row where
  period : ℤ
  initial_principal : ℚ
  total_payment : ℚ
  interest_payment : ℚ
  principal_payment : ℚ
  deriving DecidableEq

/-- The loop of `calculate_constant_principal_schedule`: starting at period `k`
with outstanding balance `bal`, produce `n` rows with constant principal
payment `pp` and periodic rate `r_p`. -/
def constPrincipalRows (r_p pp : ℚ) : ℕ → ℤ → ℚ → List Row
  | 0, _, _ => []
  | n + 1, k, bal =>
      { period := k, initial_principal := bal, total_payment := pp + bal * r_p,
        interest_payment := bal * r_p, principal_payment := pp }
        :: constPrincipalRows r_p pp n (k + 1) (bal - pp)

/-- Embedding of `calculate_constant_principal_schedule(P, r_pa, T_years, n_per_year)` from
`zad7.py`.  `none` models the Python `ZeroDivisionError` raised when
`n_per_year = 0` (computing `r_pa / n_per_year`) or when
`N = T_years * n_per_year = 0` (computing `P / N`). -/
def calculate_constant_principal_schedule (P r_pa : ℚ) (T_years n_per_year : ℤ) :
    Option (List Row × ℚ) :=
  if n_per_year = 0 then none
  else
    let r_p : ℚ := r_pa / (n_per_year : ℚ)
    let N : ℤ := T_years * n_per_year
    if N = 0 then none
    else
      let pp : ℚ := P / (N : ℚ)
      let rows := constPrincipalRows r_p pp N.toNat 1 P
      some (rows, (rows.map Row.interest_payment).sum)

/-- The loop of `calculate_annuity_schedule`: starting at period `k` with
outstanding balance `bal`, produce `n` rows with constant total payment `pmt`
and periodic rate `r_p`. -/
def annuityRows (r_p pmt : ℚ) : ℕ → ℤ → ℚ → List Row
  | 0, _, _ => []
  | n + 1, k, bal =>
      { period := k, initial_principal := bal, total_payment := pmt,
        interest_payment := bal * r_p, principal_payment := pmt - bal * r_p }
        :: annuityRows r_p pmt n (k + 1) (bal - (pmt - bal * r_p))

/-- Embedding of `calculate_annuity_schedule(P, r_pa, T_years, n_per_year)` from `zad7.py`.
`none` models the Python `ZeroDivisionError` raised when `n_per_year = 0`,
when the annuity denominator `1 - (1 + r_p)^(-N)` is zero, or (in the
zero/negative-rate branch) when `N = 0`. -/
def calculate_annuity_schedule (P r_pa : ℚ) (T_years n_per_year : ℤ) :
    Option (List Row × ℚ) :=
  if n_per_year = 0 then none
  else
    let r_p : ℚ := r_pa / (n_per_year : ℚ)
    let N : ℤ := T_years * n_per_year
    if 0 < r_p then
      if (1 : ℚ) - (1 + r_p) ^ (-N) = 0 then none
      else
        let pmt : ℚ := P * (r_p / (1 - (1 + r_p) ^ (-N)))
        let rows := annuityRows r_p pmt N.toNat 1 P
        some (rows, (rows.map Row.interest_payment).sum)
    else
      if N = 0 then none
      else
        let pmt : ℚ := P / (N : ℚ)
        let rows := annuityRows r_p pmt N.toNat 1 P
        some (rows, (rows.map Row.interest_payment).sum)

/-! ### Basic lemmas about the schedule loops -/

theorem constPrincipalRows_length (r_p pp : ℚ) :
    ∀ (n : ℕ) (k : ℤ) (bal : ℚ), (constPrincipalRows r_p pp n k bal).length = n := by
  intro n
  induction n with
  | zero => intro k bal; simp [constPrincipalRows]
  | succ m ih => intro k bal; simp [constPrincipalRows, ih]

theorem annuityRows_length (r_p pmt : ℚ) :
    ∀ (n : ℕ) (k : ℤ) (bal : ℚ), (annuityRows r_p pmt n k bal).length = n := by
  intro n
  induction n with
  | zero => intro k bal; simp [annuityRows]
  | succ m ih => intro k bal; simp [annuityRows, ih]

theorem constPrincipalRows_ne_nil (r_p pp : ℚ) (n : ℕ) (k : ℤ) (bal : ℚ) :
    constPrincipalRows r_p pp (n + 1) k bal ≠ [] := by
  simp [constPrincipalRows]

theorem annuityRows_ne_nil (r_p pmt : ℚ) (n : ℕ) (k : ℤ) (bal : ℚ) :
    annuityRows r_p pmt (n + 1) k bal ≠ [] := by
  simp [annuityRows]

theorem constPrincipalRows_principal (r_p pp : ℚ) :
    ∀ (n : ℕ) (k : ℤ) (bal : ℚ) (row : Row),
      row ∈ constPrincipalRows r_p pp n k bal → row.principal_payment = pp := by
  intro n
  induction n with
  | zero => intro k bal row h; simp [constPrincipalRows] at h
  | succ m ih =>
      intro k bal row h
      rw [constPrincipalRows] at h
      rcases List.mem_cons.mp h with h | h
      · rw [h]
      · exact ih _ _ _ h

theorem annuityRows_total (r_p pmt : ℚ) :
    ∀ (n : ℕ) (k : ℤ) (bal : ℚ) (row : Row),
      row ∈ annuityRows r_p pmt n k bal → row.total_payment = pmt := by
  intro n
  induction n with
  | zero => intro k bal row h; simp [annuityRows] at h
  | succ m ih =>
      intro k bal row h
      rw [annuityRows] at h
      rcases List.mem_cons.mp h with h | h
      · rw [h]
      · exact ih _ _ _ h

theorem constPrincipalRows_principal_sum (r_p pp : ℚ) :
    ∀ (n : ℕ) (k : ℤ) (bal : ℚ),
      ((constPrincipalRows r_p pp n k bal).map Row.principal_payment).sum = (n : ℚ) * pp := by
  intro n
  induction n with
  | zero => intro k bal; simp [constPrincipalRows]
  | succ m ih =>
      intro k bal
      rw [constPrincipalRows]
      simp only [List.map_cons, List.sum_cons, ih]
      push_cast
      ring


/-- The invariant claimed for opening principals: nonempty schedule, each row's
opening principal is the previous row's opening principal minus its principal
portion, the first opening principal is the original principal, and the final
row's implicit successor balance (its opening principal minus its principal
portion) is zero. -/
def openingBalanceOK (P : ℚ) (rows : List Row) : Prop :=
  rows ≠ [] ∧
  List.Chain' (fun x y => y.initial_principal = x.initial_principal - x.principal_payment) rows ∧
  (∀ row ∈ rows.head?, row.initial_principal = P) ∧
  (∀ row ∈ rows.getLast?, row.initial_principal - row.principal_payment = 0)

theorem getLast?_cons_of_ne_nil {α : Type} (a : α) {l : List α} (h : l ≠ []) :
    (a :: l).getLast? = l.getLast? := by
  cases l with
  | nil => exact absurd rfl h
  | cons b t => exact List.getLast?_cons_cons

theorem constPrincipalRows_head? (r_p pp : ℚ) (n : ℕ) (k : ℤ) (bal : ℚ) :
    (constPrincipalRows r_p pp (n + 1) k bal).head? =
      some { period := k, initial_principal := bal, total_payment := pp + bal * r_p,
             interest_payment := bal * r_p, principal_payment := pp } := by
  rw [constPrincipalRows]
  rfl

theorem annuityRows_head? (r_p pmt : ℚ) (n : ℕ) (k : ℤ) (bal : ℚ) :
    (annuityRows r_p pmt (n + 1) k bal).head? =
      some { period := k, initial_principal := bal, total_payment := pmt,
             interest_payment := bal * r_p, principal_payment := pmt - bal * r_p } := by
  rw [annuityRows]
  rfl

theorem constPrincipalRows_chain (r_p pp : ℚ) :
    ∀ (n : ℕ) (k : ℤ) (bal : ℚ),
      List.Chain' (fun x y => y.initial_principal = x.initial_principal - x.principal_payment)
        (constPrincipalRows r_p pp n k bal) := by
  intro n
  induction n with
  | zero => intro k bal; simp [constPrincipalRows]
  | succ m ih =>
      intro k bal
      rw [constPrincipalRows]
      refine List.Chain'.cons' (ih (k + 1) (bal - pp)) ?_
      intro y hy
      cases m with
      | zero => simp [constPrincipalRows] at hy
      | succ m' =>
          rw [constPrincipalRows_head?] at hy
          simp only [Option.mem_def, Option.some.injEq] at hy
          rw [← hy]

theorem annuityRows_chain (r_p pmt : ℚ) :
    ∀ (n : ℕ) (k : ℤ) (bal : ℚ),
      List.Chain' (fun x y => y.initial_principal = x.initial_principal - x.principal_payment)
        (annuityRows r_p pmt n k bal) := by
  intro n
  induction n with
  | zero => intro k bal; simp [annuityRows]
  | succ m ih =>
      intro k bal
      rw [annuityRows]
      refine List.Chain'.cons' (ih (k + 1) (bal - (pmt - bal * r_p))) ?_
      intro y hy
      cases m with
      | zero => simp [annuityRows] at hy
      | succ m' =>
          rw [annuityRows_head?] at hy
          simp only [Option.mem_def, Option.some.injEq] at hy
          rw [← hy]

theorem constPrincipalRows_getLast?_sub (r_p pp : ℚ) :
    ∀ (n : ℕ) (k : ℤ) (bal : ℚ),
      ∀ row ∈ (constPrincipalRows r_p pp (n + 1) k bal).getLast?,
        row.initial_principal - row.principal_payment = bal - ((n + 1 : ℕ) : ℚ) * pp := by
  intro n
  induction n with
  | zero =>
      intro k bal row hrow
      rw [constPrincipalRows, constPrincipalRows] at hrow
      simp only [List.getLast?_singleton, Option.mem_def, Option.some.injEq] at hrow
      rw [← hrow]
      push_cast
      ring
  | succ m ih =>
      intro k bal row hrow
      rw [constPrincipalRows,
        getLast?_cons_of_ne_nil _ (constPrincipalRows_ne_nil r_p pp m (k + 1) (bal - pp))] at hrow
      rw [ih (k + 1) (bal - pp) row hrow]
      push_cast
      ring

/-- The outstanding balance after `n` iterations of the annuity loop: each step
replaces `bal` with `bal - (pmt - bal * r_p)`. -/
def annuityBal (r_p pmt : ℚ) : ℕ → ℚ → ℚ
  | 0, bal => bal
  | n + 1, bal => annuityBal r_p pmt n (bal - (pmt - bal * r_p))

theorem annuityRows_getLast?_sub (r_p pmt : ℚ) :
    ∀ (n : ℕ) (k : ℤ) (bal : ℚ),
      ∀ row ∈ (annuityRows r_p pmt (n + 1) k bal).getLast?,
        row.initial_principal - row.principal_payment = annuityBal r_p pmt (n + 1) bal := by
  intro n
  induction n with
  | zero =>
      intro k bal row hrow
      rw [annuityRows, annuityRows] at hrow
      simp only [List.getLast?_singleton, Option.mem_def, Option.some.injEq] at hrow
      rw [← hrow, annuityBal, annuityBal]
  | succ m ih =>
      intro k bal row hrow
      rw [annuityRows,
        getLast?_cons_of_ne_nil _
          (annuityRows_ne_nil r_p pmt m (k + 1) (bal - (pmt - bal * r_p)))] at hrow
      rw [ih (k + 1) (bal - (pmt - bal * r_p)) row hrow]
      rfl

theorem annuityBal_closed (r_p pmt : ℚ) (hr : r_p ≠ 0) :
    ∀ (n : ℕ) (bal : ℚ),
      annuityBal r_p pmt n bal = (bal - pmt / r_p) * (1 + r_p) ^ n + pmt / r_p := by
  intro n
  induction n with
  | zero => intro bal; simp [annuityBal]
  | succ m ih =>
      intro bal
      rw [annuityBal, ih]
      have h1 : bal - (pmt - bal * r_p) - pmt / r_p = (bal - pmt / r_p) * (1 + r_p) := by
        field_simp
        ring
      rw [h1, pow_succ]
      ring

theorem annuityBal_zero_rate (pmt : ℚ) :
    ∀ (n : ℕ) (bal : ℚ), annuityBal 0 pmt n bal = bal - (n : ℚ) * pmt := by
  intro n
  induction n with
  | zero => intro bal; simp [annuityBal]
  | succ m ih =>
      intro bal
      rw [annuityBal, ih]
      push_cast
      ring

/-! ### Unfolding the schedule builders on non-raising inputs -/

theorem cps_run (P r_pa : ℚ) (T n : ℤ) (hn : n ≠ 0) (hN : T * n ≠ 0) :
    calculate_constant_principal_schedule P r_pa T n =
      some (constPrincipalRows (r_pa / (n : ℚ)) (P / ((T * n : ℤ) : ℚ)) (T * n).toNat 1 P,
        ((constPrincipalRows (r_pa / (n : ℚ)) (P / ((T * n : ℤ) : ℚ)) (T * n).toNat 1 P).map
          Row.interest_payment).sum) := by
  simp [calculate_constant_principal_schedule, hn, hN]

theorem ann_run_pos (P r_pa : ℚ) (T n : ℤ) (hn : n ≠ 0) (hrp : 0 < r_pa / (n : ℚ))
    (hden : (1 : ℚ) - ((1 + r_pa / (n : ℚ)) ^ (T * n))⁻¹ ≠ 0) :
    calculate_annuity_schedule P r_pa T n =
      some (annuityRows (r_pa / (n : ℚ))
          (P * ((r_pa / (n : ℚ)) / (1 - (1 + r_pa / (n : ℚ)) ^ (-(T * n))))) (T * n).toNat 1 P,
        ((annuityRows (r_pa / (n : ℚ))
          (P * ((r_pa / (n : ℚ)) / (1 - (1 + r_pa / (n : ℚ)) ^ (-(T * n))))) (T * n).toNat 1 P).map
          Row.interest_payment).sum) := by
  simp [calculate_annuity_schedule, hn, hrp, hden]

theorem ann_run_nonpos (P r_pa : ℚ) (T n : ℤ) (hn : n ≠ 0) (hrp : ¬ 0 < r_pa / (n : ℚ))
    (hN : T * n ≠ 0) :
    calculate_annuity_schedule P r_pa T n =
      some (annuityRows (r_pa / (n : ℚ)) (P / ((T * n : ℤ) : ℚ)) (T * n).toNat 1 P,
        ((annuityRows (r_pa / (n : ℚ)) (P / ((T * n : ℤ) : ℚ)) (T * n).toNat 1 P).map
          Row.interest_payment).sum) := by
  simp [calculate_annuity_schedule, hn, hrp, hN]

theorem toNat_cast_rat (N : ℤ) (hN : 0 ≤ N) : ((N.toNat : ℕ) : ℚ) = ((N : ℤ) : ℚ) := by
  have h : ((N.toNat : ℕ) : ℤ) = N := Int.toNat_of_nonneg hN
  exact_mod_cast congrArg (fun z : ℤ => (z : ℚ)) h

/-! ### Claim C2: equal-principal schedule has constant principal portions
summing to the original principal -/

theorem constPrincipalRows_interest_zero (pp : ℚ) :
    ∀ (n : ℕ) (k : ℤ) (bal : ℚ),
      ((constPrincipalRows 0 pp n k bal).map Row.interest_payment).sum = 0 := by
  intro n
  induction n with
  | zero => intro k bal; simp [constPrincipalRows]
  | succ m ih =>
      intro k bal
      rw [constPrincipalRows]
      simp [ih]

theorem annuityRows_interest_zero (pmt : ℚ) :
    ∀ (n : ℕ) (k : ℤ) (bal : ℚ),
      ((annuityRows 0 pmt n k bal).map Row.interest_payment).sum = 0 := by
  intro n
  induction n with
  | zero => intro k bal; simp [annuityRows]
  | succ m ih =>
      intro k bal
      rw [annuityRows]
      simp [ih]

/-- C2: for every valid input the equal-principal schedule has principal
portion `P / N` (with `N = term_years * periods_per_year`) in every row, and
the principal portions sum to exactly the original principal. -/
theorem equal_principal_constant_and_sums (P r_pa : ℚ) (T n : ℤ)
    (hP : 0 < P) (hr : 0 ≤ r_pa) (hT : 0 < T) (hn : 0 < n) :
    ∃ rows ti, calculate_constant_principal_schedule P r_pa T n = some (rows, ti) ∧
      (∀ row ∈ rows, row.principal_payment = P / ((T * n : ℤ) : ℚ)) ∧
      (rows.map Row.principal_payment).sum = P := by
  have hN : 0 < T * n := mul_pos hT hn
  refine ⟨_, _, cps_run P r_pa T n hn.ne' hN.ne', ?_, ?_⟩
  · intro row hrow
    exact constPrincipalRows_principal _ _ _ _ _ _ hrow
  · rw [constPrincipalRows_principal_sum, toNat_cast_rat _ hN.le]
    have hNq : ((T * n : ℤ) : ℚ) ≠ 0 := by
      exact_mod_cast hN.ne'
    rw [mul_comm, div_mul_cancel₀ P hNq]

/-- C6: with a zero nominal annual rate both builders report zero total
interest, and every annuity row's total payment is `P / N` (the degenerate
branch). -/
theorem zero_rate_schedules (P : ℚ) (T n : ℤ) (hP : 0 < P) (hT : 0 < T) (hn : 0 < n) :
    ∃ rows1 ti1 rows2 ti2,
      calculate_constant_principal_schedule P 0 T n = some (rows1, ti1) ∧
      calculate_annuity_schedule P 0 T n = some (rows2, ti2) ∧
      ti1 = 0 ∧ ti2 = 0 ∧
      ∀ row ∈ rows2, row.total_payment = P / ((T * n : ℤ) : ℚ) := by
  have hN : 0 < T * n := mul_pos hT hn
  have hz : (0 : ℚ) / (n : ℚ) = 0 := zero_div _
  have hrp : ¬ (0 : ℚ) < 0 / (n : ℚ) := by rw [hz]; exact lt_irrefl 0
  refine ⟨_, _, _, _, cps_run P 0 T n hn.ne' hN.ne',
    ann_run_nonpos P 0 T n hn.ne' hrp hN.ne', ?_, ?_, ?_⟩
  · rw [hz, constPrincipalRows_interest_zero]
  · rw [hz, annuityRows_interest_zero]
  · intro row hrow
    rw [hz] at hrow
    exact annuityRows_total _ _ _ _ _ _ hrow

/-! ### Claim C1: opening-principal recurrence and zero final successor
balance, in both modes -/

theorem constPrincipal_opening_ok (r_p pp P : ℚ) (m : ℕ)
    (hlast : P - ((m + 1 : ℕ) : ℚ) * pp = 0) :
    openingBalanceOK P (constPrincipalRows r_p pp (m + 1) 1 P) := by
  refine ⟨constPrincipalRows_ne_nil r_p pp m 1 P, constPrincipalRows_chain r_p pp (m + 1) 1 P,
    ?_, ?_⟩
  · intro row hrow
    rw [constPrincipalRows_head?] at hrow
    simp only [Option.mem_def, Option.some.injEq] at hrow
    rw [← hrow]
  · intro row hrow
    rw [constPrincipalRows_getLast?_sub r_p pp m 1 P row hrow]
    exact hlast

theorem annuity_opening_ok (r_p pmt P : ℚ) (m : ℕ)
    (hlast : annuityBal r_p pmt (m + 1) P = 0) :
    openingBalanceOK P (annuityRows r_p pmt (m + 1) 1 P) := by
  refine ⟨annuityRows_ne_nil r_p pmt m 1 P, annuityRows_chain r_p pmt (m + 1) 1 P, ?_, ?_⟩
  · intro row hrow
    rw [annuityRows_head?] at hrow
    simp only [Option.mem_def, Option.some.injEq] at hrow
    rw [← hrow]
  · intro row hrow
    rw [annuityRows_getLast?_sub r_p pmt m 1 P row hrow]
    exact hlast

theorem annuity_payment_final_zero (P r A : ℚ) (hr : r ≠ 0) (hA1 : A - 1 ≠ 0) (hA0 : A ≠ 0) :
    (P - P * (r / (1 - A⁻¹)) / r) * A + P * (r / (1 - A⁻¹)) / r = 0 := by
  have h2 : r * (A - 1) ≠ 0 := mul_ne_zero hr hA1
  field_simp
  ring

/-- C1: for every valid input, in both the equal-principal and the annuity
schedule, each row's opening principal is the previous row's opening principal
minus its principal portion, the first opening principal is the original
principal, and the final row's implicit successor balance is exactly zero. -/
theorem opening_balance_invariant (P r_pa : ℚ) (T n : ℤ)
    (hP : 0 < P) (hr : 0 ≤ r_pa) (hT : 0 < T) (hn : 0 < n) :
    ∃ rows1 ti1 rows2 ti2,
      calculate_constant_principal_schedule P r_pa T n = some (rows1, ti1) ∧
      calculate_annuity_schedule P r_pa T n = some (rows2, ti2) ∧
      openingBalanceOK P rows1 ∧ openingBalanceOK P rows2 := by
  have hN : 0 < T * n := mul_pos hT hn
  have hnq : (0 : ℚ) < (n : ℚ) := by exact_mod_cast hn
  have hNq : ((T * n : ℤ) : ℚ) ≠ 0 := by exact_mod_cast hN.ne'
  have hMne : (T * n).toNat ≠ 0 := by
    intro h
    rw [Int.toNat_eq_zero] at h
    exact absurd hN (not_lt.mpr h)
  obtain ⟨m, hm⟩ := Nat.exists_eq_succ_of_ne_zero hMne
  rw [Nat.succ_eq_add_one] at hm
  have hMq : (((T * n).toNat : ℕ) : ℚ) = ((T * n : ℤ) : ℚ) := toNat_cast_rat _ hN.le
  have hcancel : P - (((T * n).toNat : ℕ) : ℚ) * (P / ((T * n : ℤ) : ℚ)) = 0 := by
    rw [hMq, mul_comm, div_mul_cancel₀ P hNq, sub_self]
  rcases hr.lt_or_eq with hra | hra
  · -- positive nominal rate: annuity takes the `r_p > 0` branch
    have hrp : 0 < r_pa / (n : ℚ) := div_pos hra hnq
    have hA : 1 < (1 + r_pa / (n : ℚ)) ^ (T * n).toNat :=
      one_lt_pow₀ (by linarith) hMne
    have hzpow : (1 + r_pa / (n : ℚ)) ^ (T * n) =
        (1 + r_pa / (n : ℚ)) ^ (T * n).toNat := by
      rw [← zpow_natCast (1 + r_pa / (n : ℚ)) (T * n).toNat,
        Int.toNat_of_nonneg hN.le]
    have hden : (1 : ℚ) - ((1 + r_pa / (n : ℚ)) ^ (T * n))⁻¹ ≠ 0 := by
      rw [hzpow]
      have := inv_lt_one_of_one_lt₀ hA
      exact (sub_pos.mpr this).ne'
    refine ⟨_, _, _, _, cps_run P r_pa T n hn.ne' hN.ne',
      ann_run_pos P r_pa T n hn.ne' hrp hden, ?_, ?_⟩
    · rw [hm]
      exact constPrincipal_opening_ok _ _ _ _ (by rw [← hm]; exact hcancel)
    · rw [hm]
      refine annuity_opening_ok _ _ _ _ ?_
      rw [← hm, annuityBal_closed _ _ hrp.ne']
      have hnegpow : (1 + r_pa / (n : ℚ)) ^ (-(T * n)) =
          ((1 + r_pa / (n : ℚ)) ^ (T * n).toNat)⁻¹ := by
        rw [zpow_neg, hzpow]
      rw [hnegpow]
      exact annuity_payment_final_zero P (r_pa / (n : ℚ))
        ((1 + r_pa / (n : ℚ)) ^ (T * n).toNat) hrp.ne'
        (sub_ne_zero.mpr hA.ne') (by positivity)
  · -- zero nominal rate: annuity takes the degenerate branch
    have hz : r_pa / (n : ℚ) = 0 := by rw [← hra, zero_div]
    have hrp : ¬ 0 < r_pa / (n : ℚ) := by rw [hz]; exact lt_irrefl 0
    refine ⟨_, _, _, _, cps_run P r_pa T n hn.ne' hN.ne',
      ann_run_nonpos P r_pa T n hn.ne' hrp hN.ne', ?_, ?_⟩
    · rw [hm]
      exact constPrincipal_opening_ok _ _ _ _ (by rw [← hm]; exact hcancel)
    · rw [hm]
      refine annuity_opening_ok _ _ _ _ ?_
      rw [← hm, hz, annuityBal_zero_rate]
      exact hcancel

/-! ### Claim C4: the numeric example `(10000, 0.10, 1, 4)` in annuity mode -/

set_option maxRecDepth 8000 in
theorem annuity_example_eval : calculate_annuity_schedule 10000 (1 / 10) 1 4 =
    some (annuityRows (1 / 40) (706440250 / 265761) 4 1 10000, 168151000 / 265761) := by
  norm_num [calculate_annuity_schedule, annuityRows]

/-- C4 counterexample: on input `(10000, 0.10, 1 year, 4 periods)` the annuity
schedule's total interest is ≈632.71, not in the claimed range 340.16–340.20,
and every row's total payment is ≈2658.18, not ≈2585.98. -/
theorem annuity_example_claim_false :
    ∃ rows ti, calculate_annuity_schedule 10000 (1 / 10) 1 4 = some (rows, ti) ∧
      ¬ ((34016 / 100 : ℚ) ≤ ti ∧ ti ≤ 34020 / 100) ∧
      ∀ row ∈ rows, ¬ |row.total_payment - 258598 / 100| ≤ 50 := by
  refine ⟨_, _, annuity_example_eval, ?_, ?_⟩
  · rintro ⟨-, h2⟩
    norm_num at h2
  · intro row hrow
    rw [annuityRows_total _ _ _ _ _ _ hrow]
    rw [abs_le]
    rintro ⟨-, h2⟩
    norm_num at h2

/-- C4 amended: the example produces 4 rows, each with total payment exactly
`706440250/265761 ≈ 2658.18`, and total interest exactly
`168151000/265761 ≈ 632.71`. -/
theorem annuity_example_actual :
    ∃ rows ti, calculate_annuity_schedule 10000 (1 / 10) 1 4 = some (rows, ti) ∧
      rows.length = 4 ∧
      (∀ row ∈ rows, row.total_payment = 706440250 / 265761) ∧
      ti = 168151000 / 265761 ∧
      |ti - 63271 / 100| < 1 / 100 ∧
      |(706440250 / 265761 : ℚ) - 265818 / 100| < 1 / 100 := by
  refine ⟨_, _, annuity_example_eval, annuityRows_length _ _ _ _ _, ?_, rfl, ?_, ?_⟩
  · intro row hrow
    exact annuityRows_total _ _ _ _ _ _ hrow
  · rw [abs_lt]
    constructor <;> norm_num
  · rw [abs_lt]
    constructor <;> norm_num

/-! ### Claim C5: behaviour on non-positive `term_years` / `periods_per_year` -/

/-- C5 counterexample: with `periods_per_year = -4 ≤ 0` (a value the claim
says must raise an invalid-parameter error), both builders return normally
with an empty schedule and zero interest — no error of any kind is raised. -/
theorem no_validation_on_negative_periods :
    calculate_constant_principal_schedule 10000 (1 / 10) 1 (-4) = some ([], 0) ∧
    calculate_annuity_schedule 10000 (1 / 10) 1 (-4) = some ([], 0) ∧
    (-4 : ℤ) ≤ 0 := by
  refine ⟨?_, ?_, by norm_num⟩
  · norm_num [calculate_constant_principal_schedule, constPrincipalRows]
  · norm_num [calculate_annuity_schedule, annuityRows]

/-- C5 amended: the builders perform no input validation.  When
`periods_per_year = 0` or `N = term_years * periods_per_year = 0` both fail
with an uncaught `ZeroDivisionError` (modelled as `none`); when `N < 0` both
return normally with an empty schedule and zero total interest. -/
theorem builders_on_nonpositive_inputs (P r_pa : ℚ) (T n : ℤ) :
    ((n = 0 ∨ T * n = 0) →
      calculate_constant_principal_schedule P r_pa T n = none ∧
      calculate_annuity_schedule P r_pa T n = none) ∧
    (n ≠ 0 → T * n < 0 →
      calculate_constant_principal_schedule P r_pa T n = some ([], 0) ∧
      calculate_annuity_schedule P r_pa T n = some ([], 0)) := by
  constructor
  · rintro (hn | hN)
    · subst hn
      constructor
      · simp [calculate_constant_principal_schedule]
      · simp [calculate_annuity_schedule]
    · by_cases hn : n = 0
      · subst hn
        constructor
        · simp [calculate_constant_principal_schedule]
        · simp [calculate_annuity_schedule]
      · constructor
        · simp [calculate_constant_principal_schedule, hn, hN]
        · by_cases hrp : 0 < r_pa / (n : ℚ)
          · simp [calculate_annuity_schedule, hn, hN, hrp]
          · simp [calculate_annuity_schedule, hn, hN, hrp]
  · intro hn hNlt
    have htoNat : (T * n).toNat = 0 := Int.toNat_of_nonpos hNlt.le
    constructor
    · rw [cps_run P r_pa T n hn hNlt.ne, htoNat]
      simp [constPrincipalRows]
    · by_cases hrp : 0 < r_pa / (n : ℚ)
      · have hMpos : (-(T * n)).toNat ≠ 0 := by
          intro h
          rw [Int.toNat_eq_zero] at h
          omega
        have hA : 1 < (1 + r_pa / (n : ℚ)) ^ (-(T * n)).toNat :=
          one_lt_pow₀ (by linarith) hMpos
        have hzpow : (1 + r_pa / (n : ℚ)) ^ (T * n) =
            ((1 + r_pa / (n : ℚ)) ^ (-(T * n)).toNat)⁻¹ := by
          rw [← zpow_natCast (1 + r_pa / (n : ℚ)) (-(T * n)).toNat,
            Int.toNat_of_nonneg (by omega : (0 : ℤ) ≤ -(T * n)), ← zpow_neg, neg_neg]
        have hden : (1 : ℚ) - ((1 + r_pa / (n : ℚ)) ^ (T * n))⁻¹ ≠ 0 := by
          rw [hzpow, inv_inv]
          intro h
          rw [sub_eq_zero] at h
          exact absurd h.symm hA.ne'
        rw [ann_run_pos P r_pa T n hn hrp hden, htoNat]
        simp [annuityRows]
      · rw [ann_run_nonpos P r_pa T n hn hrp hNlt.ne, htoNat]
        simp [annuityRows]

theorem builders_on_nonpositive_inputs_witness :
    (calculate_constant_principal_schedule 10000 (1 / 10) 0 4 = none ∧
      calculate_annuity_schedule 10000 (1 / 10) 0 4 = none) ∧
    (calculate_constant_principal_schedule 10000 (1 / 10) 1 (-4) = some ([], 0) ∧
      calculate_annuity_schedule 10000 (1 / 10) 1 (-4) = some ([], 0)) :=
  ⟨(builders_on_nonpositive_inputs 10000 (1 / 10) 0 4).1 (Or.inr (by norm_num)),
    (builders_on_nonpositive_inputs 10000 (1 / 10) 1 (-4)).2 (by norm_num) (by norm_num)⟩

theorem opening_balance_invariant_witness :
    ∃ rows1 ti1 rows2 ti2,
      calculate_constant_principal_schedule 10000 (1 / 10) 1 4 = some (rows1, ti1) ∧
      calculate_annuity_schedule 10000 (1 / 10) 1 4 = some (rows2, ti2) ∧
      openingBalanceOK 10000 rows1 ∧ openingBalanceOK 10000 rows2 :=
  opening_balance_invariant 10000 (1 / 10) 1 4 (by norm_num) (by norm_num) (by norm_num)
    (by norm_num)

theorem equal_principal_constant_and_sums_witness :
    ∃ rows ti, calculate_constant_principal_schedule 10000 (1 / 10) 1 4 = some (rows, ti) ∧
      (∀ row ∈ rows, row.principal_payment = 10000 / ((1 * 4 : ℤ) : ℚ)) ∧
      (rows.map Row.principal_payment).sum = 10000 :=
  equal_principal_constant_and_sums 10000 (1 / 10) 1 4 (by norm_num) (by norm_num) (by norm_num)
    (by norm_num)

theorem zero_rate_schedules_witness :
    ∃ rows1 ti1 rows2 ti2,
      calculate_constant_principal_schedule 10000 0 1 4 = some (rows1, ti1) ∧
      calculate_annuity_schedule 10000 0 1 4 = some (rows2, ti2) ∧
      ti1 = 0 ∧ ti2 = 0 ∧
      ∀ row ∈ rows2, row.total_payment = 10000 / ((1 * 4 : ℤ) : ℚ) :=
  zero_rate_schedules 10000 1 4 (by norm_num) (by norm_num) (by norm_num)

/-! ### The monthly-interest accrual routine (`zestaw1/zad1.py`)

A Python dict with unique integer keys is embedded as an association list
`List (ℤ × ℚ)` in iteration (= insertion) order.  `dict(sorted(d.items()))`
re-creates the dict in ascending key order; `d[k] = v` overwrites in place
when the key is present and appends otherwise. -/

/-- Insert one pair into a list already sorted by key (ascending), after any
equal keys. -/
def insertByKey (p : ℤ × ℚ) : List (ℤ × ℚ) → List (ℤ × ℚ)
  | [] => [p]
  | q :: rest => if p.1 < q.1 then p :: q :: rest else q :: insertByKey p rest

/-- Embedding of `dict(sorted(transactions.items()))`: the association list re-ordered by
ascending key. -/
def sortByKey : List (ℤ × ℚ) → List (ℤ × ℚ)
  | [] => []
  | p :: rest => insertByKey p (sortByKey rest)

/-- Python dict assignment `d[k] = v`: overwrite the value in place when the
key is present, otherwise append the new pair at the end. -/
def setKey (l : List (ℤ × ℚ)) (k : ℤ) (v : ℚ) : List (ℤ × ℚ) :=
  if l.any (fun p => p.1 = k) then l.map fun p => if p.1 = k then (k, v) else p
  else l ++ [(k, v)]

/-- The `for day, amount in sorted_transactions.items()` loop of
`calculate_monthly_interest`: state is (total_interest, current_balance,
processed_through_day). -/
def accrueLoop (dr : ℚ) : List (ℤ × ℚ) → ℚ → ℚ → ℤ → ℚ × ℚ × ℤ
  | [], ti, bal, c => (ti, bal, c)
  | (d, a) :: rest, ti, bal, c =>
      accrueLoop dr rest
        (if 0 < d - 1 - c then ti + bal * dr * ((d - 1 - c : ℤ) : ℚ) else ti)
        (bal + a) (d - 1)

/-- Embedding of `calculate_monthly_interest(start_balance, transactions, days_in_month,
annual_rate)` from `zestaw1/zad1.py`: returns `(total_interest,
closing_balance)`. -/
def calculate_monthly_interest (start_balance : ℚ) (transactions : List (ℤ × ℚ))
    (days_in_month : ℤ) (annual_rate : ℚ) : ℚ × ℚ :=
  let daily_rate := annual_rate / 365
  let sorted_transactions := setKey (sortByKey transactions) (days_in_month + 1) 0
  let res := accrueLoop daily_rate sorted_transactions 0 start_balance 0
  (res.1, res.2.1 + res.1)

/-- Spec-side definition (refinement target), following the spec's words: the
total accrued interest is the sum, over the sub-periods between consecutive
transaction days, of (balance held during that sub-period) × daily rate ×
(number of days in the sub-period).  The balance of a sub-period is the
running balance before the transaction ending it; `prev` is the last day
already accounted for. -/
def specSubPeriodInterest (dr : ℚ) : ℚ → ℤ → List (ℤ × ℚ) → ℚ
  | _, _, [] => 0
  | bal, prev, (d, a) :: rest =>
      bal * dr * ((d - 1 - prev : ℤ) : ℚ) + specSubPeriodInterest dr (bal + a) (d - 1) rest

/-! ### Sorting lemmas -/

def keyLE (p q : ℤ × ℚ) : Prop := p.1 ≤ q.1

def keyLT (p q : ℤ × ℚ) : Prop := p.1 < q.1

instance : DecidableRel keyLE := fun p q => inferInstanceAs (Decidable (p.1 ≤ q.1))

instance : DecidableRel keyLT := fun p q => inferInstanceAs (Decidable (p.1 < q.1))

theorem insertByKey_perm (p : ℤ × ℚ) :
    ∀ l : List (ℤ × ℚ), (insertByKey p l).Perm (p :: l) := by
  intro l
  induction l with
  | nil => simp [insertByKey]
  | cons q rest ih =>
      rw [insertByKey]
      by_cases h : p.1 < q.1
      · rw [if_pos h]
      · rw [if_neg h]
        exact (ih.cons q).trans (List.Perm.swap p q rest)

theorem sortByKey_perm : ∀ l : List (ℤ × ℚ), (sortByKey l).Perm l := by
  intro l
  induction l with
  | nil => simp [sortByKey]
  | cons p rest ih =>
      rw [sortByKey]
      exact (insertByKey_perm p (sortByKey rest)).trans (ih.cons p)

theorem insertByKey_pairwise (p : ℤ × ℚ) :
    ∀ l : List (ℤ × ℚ), l.Pairwise keyLE → (insertByKey p l).Pairwise keyLE := by
  intro l
  induction l with
  | nil => intro _; simp [insertByKey, List.pairwise_singleton]
  | cons q rest ih =>
      intro hl
      rw [List.pairwise_cons] at hl
      rw [insertByKey]
      by_cases h : p.1 < q.1
      · rw [if_pos h]
        refine List.Pairwise.cons ?_ (List.Pairwise.cons hl.1 hl.2)
        intro x hx
        rcases List.mem_cons.mp hx with hx | hx
        · rw [hx]; exact le_of_lt h
        · exact le_trans (le_of_lt h) (hl.1 x hx)
      · rw [if_neg h]
        refine List.Pairwise.cons ?_ (ih hl.2)
        intro x hx
        rcases List.mem_cons.mp ((insertByKey_perm p rest).mem_iff.mp hx) with hx1 | hx1
        · rw [hx1]; exact le_of_not_lt h
        · exact hl.1 x hx1

theorem sortByKey_pairwise : ∀ l : List (ℤ × ℚ), (sortByKey l).Pairwise keyLE := by
  intro l
  induction l with
  | nil => simp [sortByKey]
  | cons p rest ih => exact insertByKey_pairwise p (sortByKey rest) ih

theorem pairwise_keyLT_of_nodup {l : List (ℤ × ℚ)} (hle : l.Pairwise keyLE)
    (hnd : (l.map Prod.fst).Nodup) : l.Pairwise keyLT := by
  have hne : l.Pairwise fun p q : ℤ × ℚ => p.1 ≠ q.1 := by
    rw [List.Nodup, List.pairwise_map] at hnd
    exact hnd
  exact (hle.and hne).imp fun h => lt_of_le_of_ne h.1 h.2

theorem eq_of_perm_of_pairwise_keyLT {l₁ l₂ : List (ℤ × ℚ)} (hp : l₁.Perm l₂)
    (h₁ : l₁.Pairwise keyLT) (h₂ : l₂.Pairwise keyLT) : l₁ = l₂ := by
  haveI : IsAntisymm (ℤ × ℚ) keyLT :=
    ⟨fun a b hab hba => absurd (lt_trans hab hba) (lt_irrefl _)⟩
  exact List.eq_of_perm_of_sorted hp h₁ h₂

/-- Two lists with the same pairs and no duplicate keys sort identically. -/
theorem sortByKey_eq_of_perm {l₁ l₂ : List (ℤ × ℚ)} (hp : l₁.Perm l₂)
    (hnd : (l₁.map Prod.fst).Nodup) : sortByKey l₁ = sortByKey l₂ := by
  have hnd₂ : (l₂.map Prod.fst).Nodup := ((hp.map Prod.fst).nodup_iff).mp hnd
  have hs₁ : ((sortByKey l₁).map Prod.fst).Nodup :=
    (((sortByKey_perm l₁).map Prod.fst).nodup_iff).mpr hnd
  have hs₂ : ((sortByKey l₂).map Prod.fst).Nodup :=
    (((sortByKey_perm l₂).map Prod.fst).nodup_iff).mpr hnd₂
  exact eq_of_perm_of_pairwise_keyLT
    ((sortByKey_perm l₁).trans (hp.trans (sortByKey_perm l₂).symm))
    (pairwise_keyLT_of_nodup (sortByKey_pairwise l₁) hs₁)
    (pairwise_keyLT_of_nodup (sortByKey_pairwise l₂) hs₂)

/-! ### Lemmas about the accrual loop -/

theorem accrueLoop_append (dr : ℚ) :
    ∀ (l t : List (ℤ × ℚ)) (ti bal : ℚ) (c : ℤ),
      accrueLoop dr (l ++ t) ti bal c =
        accrueLoop dr t (accrueLoop dr l ti bal c).1 (accrueLoop dr l ti bal c).2.1
          (accrueLoop dr l ti bal c).2.2 := by
  intro l
  induction l with
  | nil => intro t ti bal c; rfl
  | cons p rest ih =>
      intro t ti bal c
      obtain ⟨d, a⟩ := p
      rw [List.cons_append, accrueLoop, accrueLoop, ih]

theorem accrueLoop_balance (dr : ℚ) :
    ∀ (l : List (ℤ × ℚ)) (ti bal : ℚ) (c : ℤ),
      (accrueLoop dr l ti bal c).2.1 = bal + (l.map Prod.snd).sum := by
  intro l
  induction l with
  | nil => intro ti bal c; simp [accrueLoop]
  | cons p rest ih =>
      intro ti bal c
      obtain ⟨d, a⟩ := p
      rw [accrueLoop, ih]
      simp only [List.map_cons, List.sum_cons]
      ring

theorem accrueLoop_cursor (dr : ℚ) :
    ∀ (l : List (ℤ × ℚ)) (ti bal : ℚ) (c : ℤ),
      (accrueLoop dr l ti bal c).2.2 = c ∨
        ∃ p ∈ l, (accrueLoop dr l ti bal c).2.2 = p.1 - 1 := by
  intro l
  induction l with
  | nil => intro ti bal c; exact Or.inl rfl
  | cons p rest ih =>
      intro ti bal c
      obtain ⟨d, a⟩ := p
      rw [accrueLoop]
      rcases ih (if 0 < d - 1 - c then ti + bal * dr * ((d - 1 - c : ℤ) : ℚ) else ti)
          (bal + a) (d - 1) with h | ⟨q, hq, h⟩
      · exact Or.inr ⟨(d, a), List.mem_cons_self _ _, h⟩
      · exact Or.inr ⟨q, List.mem_cons_of_mem _ hq, h⟩

theorem ite_accrue_eq (ti x : ℚ) (nd : ℤ) (h : 0 ≤ nd) :
    (if 0 < nd then ti + x * ((nd : ℤ) : ℚ) else ti) = ti + x * ((nd : ℤ) : ℚ) := by
  by_cases hlt : 0 < nd
  · rw [if_pos hlt]
  · have : nd = 0 := le_antisymm (not_lt.mp hlt) h
    rw [if_neg hlt, this]
    norm_num

/-- Refinement: on a key-sorted list whose keys all exceed the cursor, the
loop's accumulated interest is exactly the spec's sub-period sum. -/
theorem accrueLoop_interest_spec (dr : ℚ) :
    ∀ (l : List (ℤ × ℚ)) (ti bal : ℚ) (c : ℤ),
      (∀ p ∈ l, c < p.1) → l.Pairwise keyLT →
      (accrueLoop dr l ti bal c).1 = ti + specSubPeriodInterest dr bal c l := by
  intro l
  induction l with
  | nil => intro ti bal c _ _; simp [accrueLoop, specSubPeriodInterest]
  | cons p rest ih =>
      intro ti bal c hmem hpair
      obtain ⟨d, a⟩ := p
      rw [List.pairwise_cons] at hpair
      have hc : c < d := hmem (d, a) (List.mem_cons_self _ _)
      rw [accrueLoop, specSubPeriodInterest,
        ite_accrue_eq ti (bal * dr) (d - 1 - c) (by omega),
        ih _ (bal + a) (d - 1) (fun q hq => by
          have := hpair.1 q hq
          exact lt_of_le_of_lt (by omega) this) hpair.2]
      ring

/-! ### Positional lemmas for `setKey` and `sortByKey` -/

theorem setKey_not_mem {l : List (ℤ × ℚ)} {k : ℤ} (v : ℚ) (h : ∀ p ∈ l, p.1 ≠ k) :
    setKey l k v = l ++ [(k, v)] := by
  rw [setKey, if_neg]
  intro hany
  rw [List.any_eq_true] at hany
  obtain ⟨p, hp, hpk⟩ := hany
  exact h p hp (by simpa using hpk)

theorem setKey_last {l : List (ℤ × ℚ)} {k : ℤ} (a v : ℚ) (h : ∀ p ∈ l, p.1 ≠ k) :
    setKey (l ++ [(k, a)]) k v = l ++ [(k, v)] := by
  rw [setKey, if_pos]
  · rw [List.map_append]
    congr 1
    · calc l.map (fun p => if p.1 = k then (k, v) else p) = l.map id :=
            List.map_congr_left fun p hp => by rw [if_neg (h p hp)]; rfl
        _ = l := List.map_id l
    · simp
  · rw [List.any_eq_true]
    exact ⟨(k, a), List.mem_append_right _ (List.mem_singleton_self _), by simp⟩

theorem insertByKey_append {l : List (ℤ × ℚ)} {k : ℤ} (v : ℚ) (h : ∀ q ∈ l, q.1 ≤ k) :
    insertByKey (k, v) l = l ++ [(k, v)] := by
  induction l with
  | nil => rfl
  | cons q rest ih =>
      rw [insertByKey, if_neg (not_lt.mpr (h q (List.mem_cons_self _ _))), List.cons_append,
        ih fun q hq => h q (List.mem_cons_of_mem _ hq)]

theorem insertByKey_front {l : List (ℤ × ℚ)} {k : ℤ} (v : ℚ) (h : ∀ q ∈ l, k < q.1) :
    insertByKey (k, v) l = (k, v) :: l := by
  cases l with
  | nil => rfl
  | cons q rest => rw [insertByKey, if_pos (h q (List.mem_cons_self _ _))]

theorem sortByKey_cons_min {ts : List (ℤ × ℚ)} {k : ℤ} (v : ℚ) (h : ∀ q ∈ ts, k < q.1) :
    sortByKey ((k, v) :: ts) = (k, v) :: sortByKey ts := by
  rw [sortByKey]
  exact insertByKey_front v fun q hq => h q ((sortByKey_perm ts).mem_iff.mp hq)

theorem sortByKey_append_max {ts : List (ℤ × ℚ)} {k : ℤ} (v : ℚ) (h : ∀ q ∈ ts, q.1 ≤ k) :
    sortByKey ((k, v) :: ts) = sortByKey ts ++ [(k, v)] := by
  rw [sortByKey]
  exact insertByKey_append v fun q hq => h q ((sortByKey_perm ts).mem_iff.mp hq)

/-- When every transaction key is at most `days_in_month`, the dict after the
sentinel assignment is the sorted list with `(days_in_month + 1, 0)` appended. -/
theorem cmi_sorted_form (start_balance : ℚ) (ts : List (ℤ × ℚ)) (dim : ℤ) (rate : ℚ)
    (h : ∀ p ∈ ts, p.1 ≤ dim) :
    calculate_monthly_interest start_balance ts dim rate =
      ((accrueLoop (rate / 365) (sortByKey ts ++ [(dim + 1, 0)]) 0 start_balance 0).1,
        (accrueLoop (rate / 365) (sortByKey ts ++ [(dim + 1, 0)]) 0 start_balance 0).2.1 +
          (accrueLoop (rate / 365) (sortByKey ts ++ [(dim + 1, 0)]) 0 start_balance 0).1) := by
  rw [calculate_monthly_interest]
  rw [setKey_not_mem 0 fun p hp => by
    have := h p ((sortByKey_perm ts).mem_iff.mp hp)
    omega]

/-- C3: closing balance equals start balance plus all transaction amounts plus
the total interest, and the total interest refines the spec's sum of
per-sub-period interest on the balance held during each sub-period. -/
theorem monthly_interest_invariant (start_balance rate : ℚ) (ts : List (ℤ × ℚ)) (dim : ℤ)
    (hnd : (ts.map Prod.fst).Nodup) (hrange : ∀ p ∈ ts, 1 ≤ p.1 ∧ p.1 ≤ dim) (hdim : 0 < dim) :
    (calculate_monthly_interest start_balance ts dim rate).2 =
      start_balance + (ts.map Prod.snd).sum +
        (calculate_monthly_interest start_balance ts dim rate).1 ∧
    (calculate_monthly_interest start_balance ts dim rate).1 =
      specSubPeriodInterest (rate / 365) start_balance 0 (sortByKey ts ++ [(dim + 1, 0)]) := by
  have hform := cmi_sorted_form start_balance ts dim rate fun p hp => (hrange p hp).2
  have hsortmem : ∀ p ∈ sortByKey ts, 1 ≤ p.1 ∧ p.1 ≤ dim :=
    fun p hp => hrange p ((sortByKey_perm ts).mem_iff.mp hp)
  have hpair : (sortByKey ts ++ [(dim + 1, 0)]).Pairwise keyLT := by
    rw [List.pairwise_append]
    refine ⟨pairwise_keyLT_of_nodup (sortByKey_pairwise ts)
      (((sortByKey_perm ts).map Prod.fst).nodup_iff.mpr hnd), List.pairwise_singleton _ _, ?_⟩
    intro p hp q hq
    rw [List.mem_singleton] at hq
    rw [hq]
    show p.1 < dim + 1
    have := (hsortmem p hp).2
    omega
  have hmem : ∀ p ∈ sortByKey ts ++ [(dim + 1, 0)], (0 : ℤ) < p.1 := by
    intro p hp
    rcases List.mem_append.mp hp with hp | hp
    · have := (hsortmem p hp).1; omega
    · rw [List.mem_singleton] at hp; rw [hp]; omega
  constructor
  · rw [hform]
    rw [accrueLoop_balance]
    simp only [List.map_append, List.sum_append, List.map_cons, List.map_nil, List.sum_cons,
      List.sum_nil]
    rw [((sortByKey_perm ts).map Prod.snd).sum_eq]
    ring
  · rw [hform]
    rw [accrueLoop_interest_spec (rate / 365) _ 0 start_balance 0 hmem hpair, zero_add]

theorem monthly_interest_invariant_witness :
    (calculate_monthly_interest 100000 [(5, 17000), (12, 35000), (21, -55000)] 31 (1 / 20)).2 =
      100000 + (([(5, 17000), (12, 35000), (21, -55000)] :
          List (ℤ × ℚ)).map Prod.snd).sum +
        (calculate_monthly_interest 100000 [(5, 17000), (12, 35000), (21, -55000)] 31
          (1 / 20)).1 ∧
    (calculate_monthly_interest 100000 [(5, 17000), (12, 35000), (21, -55000)] 31 (1 / 20)).1 =
      specSubPeriodInterest ((1 / 20) / 365) 100000 0
        (sortByKey [(5, 17000), (12, 35000), (21, -55000)] ++ [(31 + 1, 0)]) :=
  monthly_interest_invariant 100000 (1 / 20) [(5, 17000), (12, 35000), (21, -55000)] 31
    (by decide) (by decide) (by decide)

/-! ### Claim C10: empty transactions mapping -/

/-- C10: with no transactions the sentinel alone triggers a single accrual
sub-period spanning the whole month: total interest is exactly
`start_balance * (annual_rate / 365) * days_in_month` and the closing balance
is `start_balance` plus that interest. -/
theorem monthly_interest_empty (start_balance rate : ℚ) (dim : ℤ) (hdim : 0 < dim) :
    calculate_monthly_interest start_balance [] dim rate =
      (start_balance * (rate / 365) * ((dim : ℤ) : ℚ),
        start_balance + start_balance * (rate / 365) * ((dim : ℤ) : ℚ)) := by
  rw [calculate_monthly_interest]
  have hs : sortByKey [] = [] := rfl
  rw [hs, setKey_not_mem 0 (by intro p hp; simp at hp), List.nil_append, accrueLoop]
  have harg : dim + 1 - 1 - 0 = dim := by ring
  rw [harg, if_pos hdim, accrueLoop]
  simp

theorem monthly_interest_empty_witness :
    calculate_monthly_interest 100000 [] 31 (1 / 20) =
      (100000 * ((1 / 20) / 365) * ((31 : ℤ) : ℚ),
        100000 + 100000 * ((1 / 20) / 365) * ((31 : ℤ) : ℚ)) :=
  monthly_interest_empty 100000 (1 / 20) 31 (by decide)

/-! ### Claim C8: determinism and insensitivity to insertion order -/

/-- C8: for two transaction mappings holding exactly the same (day, amount)
pairs in possibly different insertion orders (keys unique), the function
iterates both in ascending key order and returns identical results; repeated
invocation on the same input is trivially identical (pure function). -/
theorem monthly_interest_order_insensitive (start_balance rate : ℚ) (dim : ℤ)
    (ts₁ ts₂ : List (ℤ × ℚ)) (hp : ts₁.Perm ts₂) (hnd : (ts₁.map Prod.fst).Nodup) :
    calculate_monthly_interest start_balance ts₁ dim rate =
      calculate_monthly_interest start_balance ts₂ dim rate ∧
    calculate_monthly_interest start_balance ts₁ dim rate =
      calculate_monthly_interest start_balance ts₁ dim rate := by
  refine ⟨?_, rfl⟩
  rw [calculate_monthly_interest, calculate_monthly_interest,
    sortByKey_eq_of_perm hp hnd]

theorem monthly_interest_order_insensitive_witness :
    calculate_monthly_interest 100000 [(5, 17000), (12, 35000), (21, -55000)] 31 (1 / 20) =
      calculate_monthly_interest 100000 [(21, -55000), (5, 17000), (12, 35000)] 31 (1 / 20) ∧
    calculate_monthly_interest 100000 [(5, 17000), (12, 35000), (21, -55000)] 31 (1 / 20) =
      calculate_monthly_interest 100000 [(5, 17000), (12, 35000), (21, -55000)] 31 (1 / 20) :=
  monthly_interest_order_insensitive 100000 (1 / 20) 31
    [(5, 17000), (12, 35000), (21, -55000)] [(21, -55000), (5, 17000), (12, 35000)]
    (by decide) (by decide)

/-! ### Claim C9: a pre-existing key `days_in_month + 1` is overwritten -/

theorem cmi_closing (start_balance rate : ℚ) (ts : List (ℤ × ℚ)) (dim : ℤ)
    (h : ∀ p ∈ ts, p.1 ≤ dim) :
    (calculate_monthly_interest start_balance ts dim rate).2 =
      start_balance + (ts.map Prod.snd).sum +
        (calculate_monthly_interest start_balance ts dim rate).1 := by
  rw [cmi_sorted_form start_balance ts dim rate h, accrueLoop_balance]
  simp only [List.map_append, List.sum_append, List.map_cons, List.map_nil, List.sum_cons,
    List.sum_nil]
  rw [((sortByKey_perm ts).map Prod.snd).sum_eq]
  ring

/-- C9: when the caller's mapping already contains the key
`days_in_month + 1`, the sentinel assignment overwrites that entry with 0.0
before the loop runs, so its amount is silently dropped: the result is
identical to the result without that entry, and the closing balance accounts
only for the remaining transactions. -/
theorem sentinel_key_overwritten (start_balance a rate : ℚ) (ts : List (ℤ × ℚ)) (dim : ℤ)
    (hrange : ∀ p ∈ ts, 1 ≤ p.1 ∧ p.1 ≤ dim) :
    calculate_monthly_interest start_balance ((dim + 1, a) :: ts) dim rate =
      calculate_monthly_interest start_balance ts dim rate ∧
    (calculate_monthly_interest start_balance ((dim + 1, a) :: ts) dim rate).2 =
      start_balance + (ts.map Prod.snd).sum +
        (calculate_monthly_interest start_balance ((dim + 1, a) :: ts) dim rate).1 := by
  have hsort : ∀ p ∈ sortByKey ts, p.1 ≤ dim :=
    fun p hp => (hrange p ((sortByKey_perm ts).mem_iff.mp hp)).2
  have h1 : calculate_monthly_interest start_balance ((dim + 1, a) :: ts) dim rate =
      calculate_monthly_interest start_balance ts dim rate := by
    rw [calculate_monthly_interest, calculate_monthly_interest,
      sortByKey_append_max a fun q hq => by have := (hrange q hq).2; omega]
    rw [setKey_last a 0 fun p hp => by have := hsort p hp; omega]
    rw [setKey_not_mem 0 fun p hp => by have := hsort p hp; omega]
  refine ⟨h1, ?_⟩
  rw [h1]
  exact cmi_closing start_balance rate ts dim fun p hp => (hrange p hp).2

theorem sentinel_key_overwritten_witness :
    calculate_monthly_interest 100000 ((31 + 1, 777) :: [(5, 17000)]) 31 (1 / 20) =
      calculate_monthly_interest 100000 [(5, 17000)] 31 (1 / 20) ∧
    (calculate_monthly_interest 100000 ((31 + 1, 777) :: [(5, 17000)]) 31 (1 / 20)).2 =
      100000 + (([(5, 17000)] : List (ℤ × ℚ)).map Prod.snd).sum +
        (calculate_monthly_interest 100000 ((31 + 1, 777) :: [(5, 17000)]) 31 (1 / 20)).1 :=
  sentinel_key_overwritten 100000 777 (1 / 20) [(5, 17000)] 31 (by decide)

/-! ### Claim C7: transactions on day 1 and on the last day of the month -/

theorem cmi_day_one (start_balance a rate : ℚ) (tsA : List (ℤ × ℚ)) (dim : ℤ)
    (hdim : 0 < dim) (hA : ∀ p ∈ tsA, 2 ≤ p.1 ∧ p.1 ≤ dim) :
    calculate_monthly_interest start_balance ((1, a) :: tsA) dim rate =
      calculate_monthly_interest (start_balance + a) tsA dim rate := by
  have hsort : ∀ p ∈ sortByKey tsA, 2 ≤ p.1 ∧ p.1 ≤ dim :=
    fun p hp => hA p ((sortByKey_perm tsA).mem_iff.mp hp)
  rw [calculate_monthly_interest, calculate_monthly_interest,
    sortByKey_cons_min a fun q hq => by have := (hA q hq).1; omega]
  rw [setKey_not_mem 0 (l := (1, a) :: sortByKey tsA) fun p hp => by
    rcases List.mem_cons.mp hp with hp | hp
    · rw [hp]; omega
    · have := (hsort p hp).2; omega]
  rw [setKey_not_mem 0 fun p hp => by have := (hsort p hp).2; omega]
  rw [List.cons_append, accrueLoop]
  norm_num

theorem accrueLoop_lastday_tail (dr i₀ B₀ b : ℚ) (c₀ dim : ℤ) (h1 : c₀ ≤ dim - 1)
    (h2 : c₀ < dim) :
    (accrueLoop dr [(dim, b), (dim + 1, 0)] i₀ B₀ c₀).1 =
      (accrueLoop dr [(dim + 1, 0)] i₀ B₀ c₀).1 + b * dr ∧
    (accrueLoop dr [(dim, b), (dim + 1, 0)] i₀ B₀ c₀).2.1 =
      (accrueLoop dr [(dim + 1, 0)] i₀ B₀ c₀).2.1 + b := by
  simp only [accrueLoop]
  rw [ite_accrue_eq i₀ (B₀ * dr) (dim - 1 - c₀) (by omega)]
  rw [ite_accrue_eq _ ((B₀ + b) * dr) (dim + 1 - 1 - (dim - 1)) (by omega)]
  rw [ite_accrue_eq i₀ (B₀ * dr) (dim + 1 - 1 - c₀) (by omega)]
  constructor
  · push_cast
    ring
  · ring

theorem cmi_lastday_form (start_balance b rate : ℚ) (tsB : List (ℤ × ℚ)) (dim : ℤ)
    (hB : ∀ p ∈ tsB, p.1 ≤ dim - 1) :
    calculate_monthly_interest start_balance ((dim, b) :: tsB) dim rate =
      ((accrueLoop (rate / 365) (sortByKey tsB ++ [(dim, b), (dim + 1, 0)]) 0 start_balance 0).1,
        (accrueLoop (rate / 365) (sortByKey tsB ++ [(dim, b), (dim + 1, 0)]) 0
            start_balance 0).2.1 +
          (accrueLoop (rate / 365) (sortByKey tsB ++ [(dim, b), (dim + 1, 0)]) 0
            start_balance 0).1) := by
  have hsort : ∀ p ∈ sortByKey tsB, p.1 ≤ dim - 1 :=
    fun p hp => hB p ((sortByKey_perm tsB).mem_iff.mp hp)
  rw [calculate_monthly_interest,
    sortByKey_append_max b fun q hq => by have := hB q hq; omega]
  rw [setKey_not_mem 0 fun p hp => by
    rcases List.mem_append.mp hp with hp | hp
    · have := hsort p hp; omega
    · rw [List.mem_singleton] at hp; rw [hp]; omega]
  rw [List.append_assoc]
  rfl

/-- C7: a transaction on day 1 contributes no pre-transaction interest (its
amount may equivalently be folded into the start balance), while a
transaction on the last day of the month leaves the accrual on the
pre-transaction balance for all preceding days unchanged and itself accrues
for exactly the one remaining day. -/
theorem monthly_interest_boundary_days (start_balance a b rate : ℚ)
    (tsA tsB : List (ℤ × ℚ)) (dim : ℤ) (hdim : 0 < dim)
    (hA : ∀ p ∈ tsA, 2 ≤ p.1 ∧ p.1 ≤ dim)
    (hB : ∀ p ∈ tsB, 1 ≤ p.1 ∧ p.1 ≤ dim - 1) :
    calculate_monthly_interest start_balance ((1, a) :: tsA) dim rate =
      calculate_monthly_interest (start_balance + a) tsA dim rate ∧
    (calculate_monthly_interest start_balance ((dim, b) :: tsB) dim rate).1 =
      (calculate_monthly_interest start_balance tsB dim rate).1 + b * (rate / 365) ∧
    (calculate_monthly_interest start_balance ((dim, b) :: tsB) dim rate).2 =
      (calculate_monthly_interest start_balance tsB dim rate).2 + b + b * (rate / 365) := by
  have hformL := cmi_lastday_form start_balance b rate tsB dim fun p hp => (hB p hp).2
  have hformR := cmi_sorted_form start_balance tsB dim rate fun p hp => by
    have := (hB p hp).2; omega
  rcases hS : accrueLoop (rate / 365) (sortByKey tsB) 0 start_balance 0 with ⟨i₀, B₀, c₀⟩
  have hcur := accrueLoop_cursor (rate / 365) (sortByKey tsB) 0 start_balance 0
  rw [hS] at hcur
  have hc1 : c₀ ≤ dim - 1 ∧ c₀ < dim := by
    rcases hcur with h | ⟨p, hp, h⟩
    · dsimp at h; omega
    · dsimp at h
      have := (hB p ((sortByKey_perm tsB).mem_iff.mp hp)).2
      omega
  have htail := accrueLoop_lastday_tail (rate / 365) i₀ B₀ b c₀ dim hc1.1 hc1.2
  refine ⟨cmi_day_one start_balance a rate tsA dim hdim hA, ?_, ?_⟩
  · rw [hformL, hformR,
      accrueLoop_append (rate / 365) (sortByKey tsB) [(dim, b), (dim + 1, 0)] 0 start_balance 0,
      accrueLoop_append (rate / 365) (sortByKey tsB) [(dim + 1, 0)] 0 start_balance 0, hS]
    exact htail.1
  · rw [hformL, hformR,
      accrueLoop_append (rate / 365) (sortByKey tsB) [(dim, b), (dim + 1, 0)] 0 start_balance 0,
      accrueLoop_append (rate / 365) (sortByKey tsB) [(dim + 1, 0)] 0 start_balance 0, hS]
    dsimp only
    rw [htail.1, htail.2]
    ring

theorem monthly_interest_boundary_days_witness :
    calculate_monthly_interest 100000 ((1, 50) :: [(5, 17000)]) 31 (1 / 20) =
      calculate_monthly_interest (100000 + 50) [(5, 17000)] 31 (1 / 20) ∧
    (calculate_monthly_interest 100000 ((31, 100) :: [(5, 17000)]) 31 (1 / 20)).1 =
      (calculate_monthly_interest 100000 [(5, 17000)] 31 (1 / 20)).1 + 100 * ((1 / 20) / 365) ∧
    (calculate_monthly_interest 100000 ((31, 100) :: [(5, 17000)]) 31 (1 / 20)).2 =
      (calculate_monthly_interest 100000 [(5, 17000)] 31 (1 / 20)).2 + 100 +
        100 * ((1 / 20) / 365) :=
  monthly_interest_boundary_days 100000 50 100 (1 / 20) [(5, 17000)] [(5, 17000)] 31
    (by decide) (by decide) (by decide)
